import Mathlib

/-!
Shallow embedding of the PatchMatch core of neural-doodle (src/doodle.py):
patch scoring, initialization, propagation, random search, the diversity
bias, the convergence loop of evaluate_patches, and patch reconstruction
from evaluate_feature.  Arrays are modelled as total functions into the
rationals; machine floats are modelled by exact rational arithmetic, and
np.random draws are modelled by an explicit entropy stream consumed with
modular reduction.
-/

attribute [local semireducible] Rat.add Rat.mul Rat.sub Rat.inv

namespace NeuralDoodle

/-- The fixed 3x3 neighbourhood offsets of patches_score, in source order
(doodle.py line 242). -/
def scoreOffsets : List (ℤ × ℤ) :=
  [(-1, -1), (-1, 0), (-1, 1), (0, -1), (0, 0), (0, 1), (1, -1), (1, 0), (1, 1)]

/-- Inputs shared by the matching kernels: number of source grids (the
first axis of buffers), the number of appearance channels summed by the
score, the target feature array current[b, c, y, x], the source feature
array buffers[i0, c, y, x], the spatial dims D2 = buffers.shape[2] and
D3 = buffers.shape[3], the field dims R = indices.shape[0] and
C = indices.shape[1], and the bias array biases[i0, i1, i2]. -/
structure PMInput where
  n : ℕ
  nchan : ℕ
  current : ℕ → ℕ → ℤ → ℤ → ℚ
  buffers : ℤ → ℕ → ℤ → ℤ → ℚ
  D2 : ℕ
  D3 : ℕ
  R : ℕ
  C : ℕ
  biases : ℤ → ℤ → ℤ → ℚ

/-- The state mutated by the kernels: the indices array (one coordinate
triple per target location) and the scores array. -/
structure PMState where
  indices : ℕ → ℕ → ℤ × ℤ × ℤ
  scores : ℕ → ℕ → ℚ

theorem PMState.ext {s t : PMState} (h1 : s.indices = t.indices)
    (h2 : s.scores = t.scores) : s = t := by
  cases s; cases t; cases h1; cases h2; rfl

/-- Embedding of patches_score (doodle.py lines 240-244): the sum over the
3x3 offsets of the channel-wise products of source and target values. -/
def patches_score (inp : PMInput) (i0 i1 i2 b a : ℤ) : ℚ :=
  (scoreOffsets.map (fun yx =>
    ∑ c ∈ Finset.range inp.nchan,
      inp.buffers i0 c (i1 + yx.1) (i2 + yx.2) *
        inp.current 0 c (1 + b + yx.1) (1 + a + yx.2))).sum

/-- Spec-side formulation of the patch score, following the words of the
claim: the sum, over the fixed 3x3 neighbourhood of offsets, of the
element-wise products of the target and source channel values. -/
def patchScoreSpec (inp : PMInput) (i0 i1 i2 b a : ℤ) : ℚ :=
  ∑ y ∈ Finset.Icc (-1 : ℤ) 1, ∑ x ∈ Finset.Icc (-1 : ℤ) 1,
    ∑ c ∈ Finset.range inp.nchan,
      inp.buffers i0 c (i1 + y) (i2 + x) * inp.current 0 c (1 + b + y) (1 + a + x)

/-- Claim C6: the patch score of a target location against a candidate
source location equals the sum, over the fixed 3x3 neighbourhood of
offsets, of the element-wise products of the target and source
appearance-channel values at each offset.  (The embedding is a pure
function of its arguments, so it has no side effects on any input
array by construction.) -/
theorem claim_C6 (inp : PMInput) (i0 i1 i2 b a : ℤ) :
    patches_score inp i0 i1 i2 b a = patchScoreSpec inp i0 i1 i2 b a := by
  have hI : Finset.Icc (-1 : ℤ) 1 = {-1, 0, 1} := by decide
  simp +decide only [patches_score, patchScoreSpec, scoreOffsets, hI,
    List.map_cons, List.map_nil, List.sum_cons, List.sum_nil,
    Finset.sum_insert, Finset.mem_insert, Finset.mem_singleton,
    Finset.sum_singleton]
  ring

/-- Clamp a row coordinate into the interior range [1, D2-2]
(doodle.py line 263). -/
def clampY (inp : PMInput) (x : ℤ) : ℤ := min ((inp.D2 : ℤ) - 2) (max x 1)

/-- Clamp a column coordinate into the interior range [1, D3-2]
(doodle.py line 263). -/
def clampX (inp : PMInput) (x : ℤ) : ℤ := min ((inp.D3 : ℤ) - 2) (max x 1)

/-- Clamp a field position onto the axis [0, m-1], as in
min(shape-1, max(pos, 0)) on doodle.py line 261. -/
def posClamp (m : ℕ) (x : ℤ) : ℕ := (min ((m : ℤ) - 1) (max x 0)).toNat

/-- The bias array read at a stored coordinate triple. -/
def biasAt (inp : PMInput) (t : ℤ × ℤ × ℤ) : ℚ := inp.biases t.1 t.2.1 t.2.2

/-- Overwrite the field entry of one target location. -/
def writeEntry (s : PMState) (b a : ℕ) (t : ℤ × ℤ × ℤ) (v : ℚ) : PMState where
  indices b' a' := if b' = b ∧ a' = a then t else s.indices b' a'
  scores b' a' := if b' = b ∧ a' = a then v else s.scores b' a'

/-- The shared update of both passes (doodle.py lines 264-268 and 280-284):
score the candidate, and replace the current entry exactly when the
candidate score plus the bias at the candidate beats the stored score plus
the bias at the stored entry. -/
def tryAdopt (inp : PMInput) (s : PMState) (b a : ℕ) (t : ℤ × ℤ × ℤ) : PMState :=
  let sc := patches_score inp t.1 t.2.1 t.2.2 b a
  if sc + biasAt inp t > s.scores b a + biasAt inp (s.indices b a) then
    writeEntry s b a t sc
  else s

/-- A propagation candidate (doodle.py lines 261-263): read the neighbour
entry at the offset position clamped onto the field, subtract the offset
componentwise, and clamp the spatial coordinates into the interior. -/
def propCand (inp : PMInput) (s : PMState) (b a : ℕ) (off : ℤ × ℤ × ℤ) :
    ℤ × ℤ × ℤ :=
  let nb := s.indices (posClamp inp.R ((b : ℤ) + off.2.1))
                      (posClamp inp.C ((a : ℤ) + off.2.2))
  (nb.1 - off.1, clampY inp (nb.2.1 - off.2.1), clampX inp (nb.2.2 - off.2.2))

/-- The two candidate offsets of the propagation pass (doodle.py line 260):
first the column neighbour, then the row neighbour, on the
already-processed side of the sweep. -/
def propOffsets (even : Bool) : List (ℤ × ℤ × ℤ) :=
  let d : ℤ := if even then -1 else 1
  [(0, 0, d), (0, d, 0)]

/-- One location of the propagation sweep: try both candidates in order. -/
def propStep (inp : PMInput) (even : Bool) (s : PMState) (b a : ℕ) : PMState :=
  (propOffsets even).foldl (fun s1 off => tryAdopt inp s1 b a (propCand inp s1 b a off)) s

/-- The sweep order of the propagation pass (doodle.py lines 258-259):
row-major forward on even passes, both loops reversed on odd passes. -/
def sweepOrder (R C : ℕ) (even : Bool) : List (ℕ × ℕ) :=
  ((if even then List.range R else (List.range R).reverse).flatMap fun b =>
    (if even then List.range C else (List.range C).reverse).map fun a => (b, a))

/-- Embedding of patches_propagate (doodle.py lines 256-268); the pass is
even when the pass index i is even. -/
def patches_propagate (inp : PMInput) (s : PMState) (i : ℕ) : PMState :=
  (sweepOrder inp.R inp.C (i % 2 == 0)).foldl
    (fun s1 ba => propStep inp (i % 2 == 0) s1 ba.1 ba.2) s

/-- Model of np.random.randint(lo, hi): an entropy value reduced into
[lo, hi). -/
def randint (lo hi : ℤ) (e : ℕ) : ℤ := lo + (e : ℤ) % (hi - lo)

/-- Embedding of the per-location loop of patches_search (doodle.py lines
275-284): the probe base starts at the stored coordinates, each iteration
offsets it by random draws with w = 2 ^ radius for radius = k, k-1, ..., 1,
clamps it into the interior, and adopts the probe exactly when its score
plus bias beats the stored score plus bias; the source-index i0 is read
once before the loop and never changes. -/
def searchLoc (inp : PMInput) (eta : ℕ → ℕ) (k : ℕ) (b a : ℕ)
    (e0 : (ℤ × ℤ × ℤ) × ℚ) : (ℤ × ℤ × ℤ) × ℚ :=
  let i0 := e0.1.1
  ((List.range k).foldl (fun acc t =>
      let w : ℤ := 2 ^ (k - t)
      let i1 := clampY inp (acc.1.1 + randint (-w) w (eta (2 * t)))
      let i2 := clampX inp (acc.1.2 + randint (-w) w (eta (2 * t + 1)))
      let sc := patches_score inp i0 i1 i2 b a
      if sc + inp.biases i0 i1 i2 > acc.2.2 + biasAt inp acc.2.1 then
        ((i1, i2), ((i0, i1, i2), sc))
      else ((i1, i2), acc.2))
    ((e0.1.2.1, e0.1.2.2), e0)).2

/-- Embedding of patches_search (doodle.py lines 272-284): every field
location is updated independently (the kernel is parallel over locations),
each from its own entry only. -/
def patches_search (inp : PMInput) (eta : ℕ → ℕ → ℕ → ℕ) (k : ℕ)
    (s : PMState) : PMState where
  indices b a := if b < inp.R ∧ a < inp.C then
      (searchLoc inp (eta b a) k b a (s.indices b a, s.scores b a)).1
    else s.indices b a
  scores b a := if b < inp.R ∧ a < inp.C then
      (searchLoc inp (eta b a) k b a (s.indices b a, s.scores b a)).2
    else s.scores b a

/-! Spec-side formulations of the propagation pass (claim C1) and the
random-search pass (claim C2), written from the words of the spec. -/

/-- Row-major raster order over the field. -/
def rasterOrder (R C : ℕ) : List (ℕ × ℕ) :=
  (List.range R).flatMap fun b => (List.range C).map fun a => (b, a)

/-- The claimed sweep: top-left to bottom-right on even passes, bottom-right
to top-left on odd passes. -/
def rasterSpec (R C : ℕ) (even : Bool) : List (ℕ × ℕ) :=
  if even then rasterOrder R C else (rasterOrder R C).reverse

/-- The raster displacement of a pass: -1 on even passes, +1 on odd. -/
def dirOf (even : Bool) : ℤ := if even then -1 else 1

/-- Spec-side adoption rule: replace the current entry exactly when the
candidate score plus the bias at the candidate source location strictly
exceeds the current score plus the bias at the current entry. -/
def specAdopt (inp : PMInput) (s : PMState) (b a : ℕ) (t : ℤ × ℤ × ℤ) : PMState :=
  if patches_score inp t.1 t.2.1 t.2.2 b a + biasAt inp t >
      s.scores b a + biasAt inp (s.indices b a) then
    writeEntry s b a t (patches_score inp t.1 t.2.1 t.2.2 b a)
  else s

/-- The candidate from the already-processed column neighbour: its source
coordinate shifted by the negated neighbour offset, spatial components
clamped into the interior. -/
def colNbCand (inp : PMInput) (s : PMState) (even : Bool) (b a : ℕ) : ℤ × ℤ × ℤ :=
  let nb := s.indices b (posClamp inp.C ((a : ℤ) + dirOf even))
  (nb.1, clampY inp nb.2.1, clampX inp (nb.2.2 - dirOf even))

/-- The candidate from the already-processed row neighbour. -/
def rowNbCand (inp : PMInput) (s : PMState) (even : Bool) (b a : ℕ) : ℤ × ℤ × ℤ :=
  let nb := s.indices (posClamp inp.R ((b : ℤ) + dirOf even)) a
  (nb.1, clampY inp (nb.2.1 - dirOf even), clampX inp nb.2.2)

/-- One location of the claimed propagation: exactly two candidates, from
the column neighbour and the row neighbour. -/
def specVisit (inp : PMInput) (even : Bool) (s : PMState) (b a : ℕ) : PMState :=
  let s1 := specAdopt inp s b a (colNbCand inp s even b a)
  specAdopt inp s1 b a (rowNbCand inp s1 even b a)

/-- The propagation pass as the claim words it. -/
def propagateSpec (inp : PMInput) (s : PMState) (i : ℕ) : PMState :=
  (rasterSpec inp.R inp.C (i % 2 == 0)).foldl
    (fun s1 ba => specVisit inp (i % 2 == 0) s1 ba.1 ba.2) s

theorem posClamp_self (m : ℕ) (b : ℕ) (h : b < m) : posClamp m (b : ℤ) = b := by
  unfold posClamp
  omega

theorem specAdopt_eq_tryAdopt (inp : PMInput) (s : PMState) (b a : ℕ)
    (t : ℤ × ℤ × ℤ) : specAdopt inp s b a t = tryAdopt inp s b a t := rfl

theorem propStep_eq_specVisit (inp : PMInput) (even : Bool) (s : PMState)
    (b a : ℕ) (hb : b < inp.R) (ha : a < inp.C) :
    propStep inp even s b a = specVisit inp even s b a := by
  unfold propStep propOffsets specVisit
  rw [specAdopt_eq_tryAdopt, specAdopt_eq_tryAdopt]
  simp only [List.foldl_cons, List.foldl_nil]
  have h1 : propCand inp s b a (0, 0, dirOf even) = colNbCand inp s even b a := by
    unfold propCand colNbCand
    simp [posClamp_self inp.R b hb, dirOf]
  have hcand : ∀ s1 : PMState,
      propCand inp s1 b a (0, dirOf even, 0) = rowNbCand inp s1 even b a := by
    intro s1
    unfold propCand rowNbCand
    simp [posClamp_self inp.C a ha, dirOf]
  cases even <;>
    simp only [dirOf, Bool.false_eq_true, if_false, if_true] at h1 hcand ⊢ <;>
    rw [h1, hcand]

theorem raster_mem {R C : ℕ} {even : Bool} {ba : ℕ × ℕ}
    (h : ba ∈ sweepOrder R C even) : ba.1 < R ∧ ba.2 < C := by
  unfold sweepOrder at h
  rcases List.mem_flatMap.1 h with ⟨b, hb, hmem⟩
  rcases List.mem_map.1 hmem with ⟨a, ha, rfl⟩
  refine ⟨?_, ?_⟩ <;> cases even <;> simp_all

theorem sweepOrder_eq_rasterSpec (R C : ℕ) (even : Bool) :
    sweepOrder R C even = rasterSpec R C even := by
  cases even
  · unfold sweepOrder rasterSpec rasterOrder
    simp only [Bool.false_eq_true, if_false]
    rw [List.reverse_flatMap]
    congr 1
    funext b
    simp [Function.comp, List.map_reverse]
  · rfl

/-- Claim C1: the propagation pass sweeps every target location in raster
order with direction chosen by pass parity (even pass index: top-left to
bottom-right; odd: bottom-right to top-left); at each location it proposes
exactly two candidates, taken from the already-processed row neighbour and
column neighbour with the candidate source coordinate shifted by the
negated neighbour offset, and it replaces the current entry if and only if
the candidate score plus the bias at the candidate source location
strictly exceeds the current score plus the bias at the current entry. -/
theorem claim_C1 (inp : PMInput) (s : PMState) (i : ℕ) :
    patches_propagate inp s i = propagateSpec inp s i := by
  simp only [patches_propagate, propagateSpec]
  rw [← sweepOrder_eq_rasterSpec]
  exact List.foldl_ext _ _ s fun s1 ba hmem =>
    propStep_eq_specVisit inp _ s1 ba.1 ba.2 (raster_mem hmem).1 (raster_mem hmem).2

/-- One probe of the spec-side random search: offset the probe base by
random draws with radius w = 2 ^ (k - t), clamp into the interior bounds,
hold the source-index i0 fixed, and adopt the probe exactly when its score
plus bias strictly exceeds the current best's score plus bias. -/
def probeStep (inp : PMInput) (eta : ℕ → ℕ) (k b a : ℕ) (i0 : ℤ) (t : ℕ)
    (prev : (ℤ × ℤ) × ((ℤ × ℤ × ℤ) × ℚ)) : (ℤ × ℤ) × ((ℤ × ℤ × ℤ) × ℚ) :=
  let w : ℤ := 2 ^ (k - t)
  let i1 := clampY inp (prev.1.1 + randint (-w) w (eta (2 * t)))
  let i2 := clampX inp (prev.1.2 + randint (-w) w (eta (2 * t + 1)))
  if patches_score inp i0 i1 i2 b a + inp.biases i0 i1 i2 >
      prev.2.2 + biasAt inp prev.2.1 then
    ((i1, i2), ((i0, i1, i2), patches_score inp i0 i1 i2 b a))
  else ((i1, i2), prev.2)

/-- Spec-side probe chain of the random search at one location: the state
after t probes.  The chain starts at the current best candidate's source
coordinates, and the radius starts at 2 ^ k and halves each iteration. -/
def probeChain (inp : PMInput) (eta : ℕ → ℕ) (k : ℕ) (b a : ℕ)
    (e0 : (ℤ × ℤ × ℤ) × ℚ) : ℕ → (ℤ × ℤ) × ((ℤ × ℤ × ℤ) × ℚ)
  | 0 => ((e0.1.2.1, e0.1.2.2), e0)
  | t + 1 => probeStep inp eta k b a e0.1.1 t (probeChain inp eta k b a e0 t)

/-- The random-search pass as the claim words it: every location is mapped
independently to the final entry of its probe chain of length k. -/
def searchSpec (inp : PMInput) (eta : ℕ → ℕ → ℕ → ℕ) (k : ℕ)
    (s : PMState) : PMState where
  indices b a := if b < inp.R ∧ a < inp.C then
      (probeChain inp (eta b a) k b a (s.indices b a, s.scores b a) k).2.1
    else s.indices b a
  scores b a := if b < inp.R ∧ a < inp.C then
      (probeChain inp (eta b a) k b a (s.indices b a, s.scores b a) k).2.2
    else s.scores b a

theorem searchLoc_foldl_eq_probeChain (inp : PMInput) (eta : ℕ → ℕ) (k : ℕ)
    (b a : ℕ) (e0 : (ℤ × ℤ × ℤ) × ℚ) (t : ℕ) :
    ((List.range t).foldl (fun acc u =>
      let w : ℤ := 2 ^ (k - u)
      let i1 := clampY inp (acc.1.1 + randint (-w) w (eta (2 * u)))
      let i2 := clampX inp (acc.1.2 + randint (-w) w (eta (2 * u + 1)))
      let sc := patches_score inp e0.1.1 i1 i2 b a
      if sc + inp.biases e0.1.1 i1 i2 > acc.2.2 + biasAt inp acc.2.1 then
        ((i1, i2), ((e0.1.1, i1, i2), sc))
      else ((i1, i2), acc.2))
      ((e0.1.2.1, e0.1.2.2), e0)) = probeChain inp eta k b a e0 t := by
  induction t with
  | zero => rfl
  | succ t ih =>
    rw [List.range_succ, List.foldl_append, ih]
    rfl

theorem searchLoc_eq_probeChain (inp : PMInput) (eta : ℕ → ℕ) (k : ℕ)
    (b a : ℕ) (e0 : (ℤ × ℤ × ℤ) × ℚ) :
    searchLoc inp eta k b a e0 = (probeChain inp eta k b a e0 k).2 :=
  congrArg Prod.snd (searchLoc_foldl_eq_probeChain inp eta k b a e0 k)

/-- Claim C2: in the random-search pass, for every target location the
probe sequence starts from the current best candidate's source coordinates
and probes random offsets with radius starting at 2 ^ k and halving each
iteration, each probe clamped to the interior bounds [1, dim-2] with the
source-index held fixed; a probe is adopted if and only if its score plus
bias strictly exceeds the current best's score plus bias. -/
theorem claim_C2 (inp : PMInput) (eta : ℕ → ℕ → ℕ → ℕ) (k : ℕ) (s : PMState) :
    patches_search inp eta k s = searchSpec inp eta k s := by
  apply PMState.ext <;> funext b a <;>
    simp only [patches_search, searchSpec, searchLoc_eq_probeChain]

/-! Monotonicity of the passes.  Both passes only ever adopt candidates
that strictly improve the bias-adjusted score, so the bias-adjusted stored
score of every location never decreases; the raw stored score can decrease
when the bias field is non-constant. -/

/-- The bias-adjusted stored score of a location: stored score plus the
bias at the stored source coordinates.  This is the quantity the adoption
guard of both passes compares. -/
def adjScore (inp : PMInput) (s : PMState) (b a : ℕ) : ℚ :=
  s.scores b a + biasAt inp (s.indices b a)

/-- One state improves on another when every location either kept its
entry unchanged or strictly increased its bias-adjusted score. -/
def Improving (inp : PMInput) (s t : PMState) : Prop :=
  ∀ b a : ℕ,
    (t.indices b a = s.indices b a ∧ t.scores b a = s.scores b a) ∨
    adjScore inp t b a > adjScore inp s b a

theorem Improving.refl (inp : PMInput) (s : PMState) : Improving inp s s :=
  fun _ _ => Or.inl ⟨Eq.refl _, Eq.refl _⟩

theorem Improving.adj_le {inp : PMInput} {s t : PMState}
    (h : Improving inp s t) (b a : ℕ) :
    adjScore inp s b a ≤ adjScore inp t b a := by
  rcases h b a with ⟨h1, h2⟩ | h1
  · simp [adjScore, h1, h2]
  · exact le_of_lt h1

theorem Improving.comp {inp : PMInput} {s t u : PMState}
    (h1 : Improving inp s t) (h2 : Improving inp t u) : Improving inp s u := by
  intro b a
  rcases h2 b a with ⟨hi, hs⟩ | hlt
  · rcases h1 b a with ⟨hi1, hs1⟩ | hlt1
    · exact Or.inl ⟨hi.trans hi1, hs.trans hs1⟩
    · right
      have : adjScore inp u b a = adjScore inp t b a := by
        simp [adjScore, hi, hs]
      exact this ▸ hlt1
  · exact Or.inr (lt_of_le_of_lt (h1.adj_le b a) hlt)

theorem tryAdopt_improving (inp : PMInput) (s : PMState) (b a : ℕ)
    (t : ℤ × ℤ × ℤ) : Improving inp s (tryAdopt inp s b a t) := by
  intro b' a'
  unfold tryAdopt
  by_cases h : patches_score inp t.1 t.2.1 t.2.2 b a + biasAt inp t >
      s.scores b a + biasAt inp (s.indices b a)
  · rw [if_pos h]
    by_cases hba : b' = b ∧ a' = a
    · right
      rcases hba with ⟨rfl, rfl⟩
      have hi : (writeEntry s b' a' t (patches_score inp t.1 t.2.1 t.2.2 b' a')).indices b' a' = t := by
        simp [writeEntry]
      have hs : (writeEntry s b' a' t (patches_score inp t.1 t.2.1 t.2.2 b' a')).scores b' a' =
          patches_score inp t.1 t.2.1 t.2.2 b' a' := by
        simp [writeEntry]
      unfold adjScore
      rw [hi, hs]
      exact h
    · left
      constructor <;> simp [writeEntry, hba]
  · rw [if_neg h]
    exact Or.inl ⟨Eq.refl _, Eq.refl _⟩

theorem foldl_improving {α : Type} (inp : PMInput) (f : PMState → α → PMState)
    (hf : ∀ s x, Improving inp s (f s x)) (l : List α) (s : PMState) :
    Improving inp s (l.foldl f s) := by
  induction l generalizing s with
  | nil => exact Improving.refl inp s
  | cons x xs ih => exact Improving.comp (hf s x) (ih (f s x))

theorem propStep_improving (inp : PMInput) (even : Bool) (s : PMState)
    (b a : ℕ) : Improving inp s (propStep inp even s b a) := by
  unfold propStep
  exact foldl_improving inp _ (fun s1 _ => tryAdopt_improving inp s1 b a _) _ s

theorem propagate_improving (inp : PMInput) (s : PMState) (i : ℕ) :
    Improving inp s (patches_propagate inp s i) := by
  unfold patches_propagate
  apply foldl_improving
  intro s1 ba
  exact propStep_improving inp (i % 2 == 0) s1 ba.1 ba.2

theorem probeStep_dichotomy (inp : PMInput) (eta : ℕ → ℕ) (k b a : ℕ)
    (i0 : ℤ) (t : ℕ) (prev : (ℤ × ℤ) × ((ℤ × ℤ × ℤ) × ℚ)) :
    (probeStep inp eta k b a i0 t prev).2 = prev.2 ∨
    (probeStep inp eta k b a i0 t prev).2.2 +
        biasAt inp (probeStep inp eta k b a i0 t prev).2.1 >
      prev.2.2 + biasAt inp prev.2.1 := by
  unfold probeStep
  dsimp only
  split
  · rename_i h
    right
    exact h
  · left
    rfl

theorem probeChain_dichotomy (inp : PMInput) (eta : ℕ → ℕ) (k : ℕ)
    (b a : ℕ) (e0 : (ℤ × ℤ × ℤ) × ℚ) (t : ℕ) :
    (probeChain inp eta k b a e0 t).2 = e0 ∨
    (probeChain inp eta k b a e0 t).2.2 + biasAt inp (probeChain inp eta k b a e0 t).2.1 >
      e0.2 + biasAt inp e0.1 := by
  induction t with
  | zero => exact Or.inl rfl
  | succ t ih =>
    show (probeStep inp eta k b a e0.1.1 t (probeChain inp eta k b a e0 t)).2 = e0 ∨
      (probeStep inp eta k b a e0.1.1 t (probeChain inp eta k b a e0 t)).2.2 +
          biasAt inp (probeStep inp eta k b a e0.1.1 t (probeChain inp eta k b a e0 t)).2.1 >
        e0.2 + biasAt inp e0.1
    rcases probeStep_dichotomy inp eta k b a e0.1.1 t (probeChain inp eta k b a e0 t) with
      he | hlt
    · rw [he]
      exact ih
    · right
      rcases ih with he2 | hlt2
      · rw [he2] at hlt
        exact hlt
      · exact lt_trans hlt2 hlt

theorem search_improving (inp : PMInput) (eta : ℕ → ℕ → ℕ → ℕ) (k : ℕ)
    (s : PMState) : Improving inp s (patches_search inp eta k s) := by
  intro b a
  by_cases h : b < inp.R ∧ a < inp.C
  · have hi : (patches_search inp eta k s).indices b a =
        (searchLoc inp (eta b a) k b a (s.indices b a, s.scores b a)).1 := by
      simp [patches_search, h]
    have hs : (patches_search inp eta k s).scores b a =
        (searchLoc inp (eta b a) k b a (s.indices b a, s.scores b a)).2 := by
      simp [patches_search, h]
    rw [searchLoc_eq_probeChain] at hi hs
    rcases probeChain_dichotomy inp (eta b a) k b a (s.indices b a, s.scores b a) k with
      he | hlt
    · left
      rw [hi, hs, he]
      exact ⟨rfl, rfl⟩
    · right
      unfold adjScore
      rw [hi, hs]
      exact hlt
  · left
    constructor <;> simp [patches_search, h]

theorem Improving.scores_le_of_bias_zero {inp : PMInput} {s t : PMState}
    (hbz : ∀ x y z : ℤ, inp.biases x y z = 0) (h : Improving inp s t)
    (b a : ℕ) : s.scores b a ≤ t.scores b a := by
  rcases h b a with ⟨_, hs⟩ | hlt
  · rw [hs]
  · have ht : adjScore inp t b a = t.scores b a := by
      simp [adjScore, biasAt, hbz]
    have hs : adjScore inp s b a = s.scores b a := by
      simp [adjScore, biasAt, hbz]
    rw [ht, hs] at hlt
    exact le_of_lt hlt

/-- A pass input with a non-constant bias field on which propagation
adopts a candidate whose raw score is lower than the stored one: the
stored entry (0,1,1) scores 5, the propagation candidate (0,1,2) scores 0
but carries bias 100. -/
def inpC3 : PMInput where
  n := 1
  nchan := 1
  current _ _ _ _ := 1
  buffers _ _ y x := if y = 1 ∧ x = 0 then 5 else 0
  D2 := 4
  D3 := 4
  R := 1
  C := 1
  biases _ y x := if y = 1 ∧ x = 2 then 100 else 0

/-- The state matching inpC3: one location holding entry (0,1,1) with its
true patch score 5. -/
def sC3 : PMState where
  indices _ _ := (0, 1, 1)
  scores _ _ := 5

/-- Claim C3 (counterexample): the stored raw score is not monotone under
a propagation pass.  On inpC3 the even pass replaces the entry of the only
location by the candidate (0,1,2), whose raw score 0 is lower than the
stored score 5, because the candidate's bias 100 makes its bias-adjusted
score larger; the stored score drops from 5 to 0. -/
theorem claim_C3_cex :
    ¬ sC3.scores 0 0 ≤ (patches_propagate inpC3 sC3 0).scores 0 0 := by
  decide

/-- Claim C3 (amended): for every target location and every propagation or
random-search pass, the stored score plus the bias at the stored entry --
the bias-adjusted score, which is exactly the quantity whose strict
improvement the passes require before adopting a candidate -- after the
pass is greater than or equal to its value before the pass; and whenever
the bias field is identically zero the stored raw score itself never
decreases.  (The stored raw score alone can decrease under a non-constant
bias field.) -/
theorem claim_C3 (inp : PMInput) (s : PMState) (i k : ℕ)
    (eta : ℕ → ℕ → ℕ → ℕ) :
    (∀ b a : ℕ, adjScore inp s b a ≤ adjScore inp (patches_propagate inp s i) b a) ∧
    (∀ b a : ℕ, adjScore inp s b a ≤ adjScore inp (patches_search inp eta k s) b a) ∧
    ((∀ x y z : ℤ, inp.biases x y z = 0) →
      (∀ b a : ℕ, s.scores b a ≤ (patches_propagate inp s i).scores b a) ∧
      (∀ b a : ℕ, s.scores b a ≤ (patches_search inp eta k s).scores b a)) := by
  refine ⟨(propagate_improving inp s i).adj_le,
          (search_improving inp eta k s).adj_le, fun hbz => ⟨?_, ?_⟩⟩
  · exact (propagate_improving inp s i).scores_le_of_bias_zero hbz
  · exact (search_improving inp eta k s).scores_le_of_bias_zero hbz

/-- The all-zero matching input used to instantiate general theorems. -/
def inpZero : PMInput where
  n := 1
  nchan := 1
  current _ _ _ _ := 0
  buffers _ _ _ _ := 0
  D2 := 4
  D3 := 4
  R := 1
  C := 1
  biases _ _ _ := 0

/-- The all-zero one-location state matching inpZero. -/
def sZero : PMState where
  indices _ _ := (0, 1, 1)
  scores _ _ := 0

/-- Claim C3 (witness): the amended monotonicity applied at the concrete
all-zero input, with the zero-bias hypothesis discharged. -/
theorem claim_C3_witness :
    sZero.scores 0 0 ≤ (patches_propagate inpZero sZero 0).scores 0 0 :=
  ((claim_C3 inpZero sZero 0 8 fun _ _ _ => 0).2.2 fun _ _ _ => rfl).1 0 0

/-! Initialization (evaluate_patches, doodle.py lines 484-519) and the
convergence loop (lines 521-526). -/

/-- Embedding of patches_initialize (doodle.py lines 246-252): keep the
given indices and score every location's stored coordinate triple with
patches_score. -/
def patchesInitScores (inp : PMInput) (idx : ℕ → ℕ → ℤ × ℤ × ℤ) : PMState where
  indices := idx
  scores b a := patches_score inp (idx b a).1 (idx b a).2.1 (idx b a).2.2 b a

/-- Cold-start indices (doodle.py lines 512-513): the indices array is
zero-initialised, then the row component is drawn by
np.random.randint(1, D2-1) and the column component by
np.random.randint(1, D3-1); the source-index component is never written
and stays 0. -/
def coldIndices (inp : PMInput) (eta1 eta2 : ℕ → ℕ → ℕ) (b a : ℕ) : ℤ × ℤ × ℤ :=
  (0, randint 1 ((inp.D2 : ℤ) - 1) (eta1 b a), randint 1 ((inp.D3 : ℤ) - 1) (eta2 b a))

/-- Cold-start initialization: random interior indices, then scores. -/
def coldStart (inp : PMInput) (eta1 eta2 : ℕ → ℕ → ℕ) : PMState :=
  patchesInitScores inp (coldIndices inp eta1 eta2)

/-- Reflect-padding index map of np.pad(a, 1, mode=reflect): padded
position x reads original position -x for x < 0 and 2m-2-x for x >= m. -/
def reflIdx (m : ℕ) (x : ℤ) : ℕ :=
  if x < 0 then (-x).toNat else if (m : ℤ) ≤ x then (2 * (m : ℤ) - 2 - x).toNat else x.toNat

/-- A 2-D array reflect-padded by one on each side. -/
def reflPad (m1 m2 : ℕ) (g : ℕ → ℕ → ℚ) (i j : ℕ) : ℚ :=
  g (reflIdx m1 ((i : ℤ) - 1)) (reflIdx m2 ((j : ℤ) - 1))

/-- Linear interpolation of a sampled line at a rational position. -/
def interp1 (g : ℕ → ℚ) (pos : ℚ) : ℚ :=
  (1 - (pos - ⌊pos⌋)) * g ⌊pos⌋.toNat + (pos - ⌊pos⌋) * g (⌊pos⌋ + 1).toNat

/-- Order-1 zoom by factor 2 (scipy.ndimage.zoom with endpoint-aligned
coordinate mapping): output position p of 2*M samples input position
p * (M - 1) / (2*M - 1) of M, bilinearly. -/
def zoom2 (M1 M2 : ℕ) (g : ℕ → ℕ → ℚ) (p q : ℕ) : ℚ :=
  interp1 (fun r => interp1 (g r) ((q : ℚ) * ((M2 : ℚ) - 1) / (2 * (M2 : ℚ) - 1)))
    ((p : ℚ) * ((M1 : ℚ) - 1) / (2 * (M1 : ℚ) - 1))

/-- Embedding of one coordinate plane of the warm-start upsampling
(doodle.py lines 509-510): double the coarse values, reflect-pad by one,
zoom by two with linear interpolation, drop the outermost ring (the
[1:-1] slice shifts every position by one), and truncate the float values
on assignment into the int32 indices array (the values are non-negative,
so truncation is the floor). -/
def upsampleComp (m1 m2 : ℕ) (comp : ℕ → ℕ → ℤ) (b a : ℕ) : ℤ :=
  ⌊zoom2 (m1 + 2) (m2 + 2)
      (reflPad m1 m2 fun i j => ((2 * comp i j : ℤ) : ℚ)) (b + 1) (a + 1)⌋

/-- Warm-start indices (doodle.py lines 507-510): only the row and column
planes of the zero-initialised indices array are assigned, each upsampled
from the coarser field; no clamping is applied to the upsampled values. -/
def warmIndices (m1 m2 : ℕ) (prev : ℕ → ℕ → ℤ × ℤ × ℤ) (b a : ℕ) : ℤ × ℤ × ℤ :=
  (0, upsampleComp m1 m2 (fun i j => (prev i j).2.1) b a,
      upsampleComp m1 m2 (fun i j => (prev i j).2.2) b a)

/-- Warm-start initialization: upsampled indices, then scores. -/
def warmStart (inp : PMInput) (m1 m2 : ℕ) (prev : ℕ → ℕ → ℤ × ℤ × ℤ) : PMState :=
  patchesInitScores inp (warmIndices m1 m2 prev)

/-- Embedding of the history-reuse merge (doodle.py lines 516-519): keep,
per location, whichever of the fresh entry and the previous same-level
entry has the higher score. -/
def historyMerge (s : PMState) (hIdx : ℕ → ℕ → ℤ × ℤ × ℤ) (hSc : ℕ → ℕ → ℚ) :
    PMState where
  indices b a := if hSc b a > s.scores b a then hIdx b a else s.indices b a
  scores b a := if hSc b a > s.scores b a then hSc b a else s.scores b a

/-- The state of the convergence loop (doodle.py lines 522-524) after n
iterations: iteration n applies a propagation pass with pass index n
followed by a random-search pass. -/
def loopStateAt (inp : PMInput) (eta : ℕ → ℕ → ℕ → ℕ → ℕ) (k : ℕ)
    (s0 : PMState) : ℕ → PMState
  | 0 => s0
  | n + 1 => patches_search inp (eta n) k
      (patches_propagate inp (loopStateAt inp eta k s0 n) n)

/-- The mean of the scores array (doodle.py lines 521 and 525). -/
def meanScore (inp : PMInput) (s : PMState) : ℚ :=
  (∑ b ∈ Finset.range inp.R, ∑ a ∈ Finset.range inp.C, s.scores b a) /
    ((inp.R : ℚ) * (inp.C : ℚ))

/-- The stop test after iteration n (doodle.py lines 525-526): the change
in mean score produced by iteration n falls below the quality threshold. -/
def stopsAt (inp : PMInput) (eta : ℕ → ℕ → ℕ → ℕ → ℕ) (k : ℕ) (s0 : PMState)
    (q : ℚ) (n : ℕ) : Prop :=
  meanScore inp (loopStateAt inp eta k s0 (n + 1)) -
    meanScore inp (loopStateAt inp eta k s0 n) < q

/-- The convergence loop terminates when some iteration passes the stop
test. -/
def LoopTerminates (inp : PMInput) (eta : ℕ → ℕ → ℕ → ℕ → ℕ) (k : ℕ)
    (s0 : PMState) (q : ℚ) : Prop :=
  ∃ n, stopsAt inp eta k s0 q n

/-! The source-index component of every stored entry stays 0 throughout a
run (claim C10). -/

/-- All stored entries point into the first source grid. -/
def ZeroIdx0 (s : PMState) : Prop := ∀ b a : ℕ, (s.indices b a).1 = 0

theorem tryAdopt_indices_cases (inp : PMInput) (s : PMState) (b a : ℕ)
    (t : ℤ × ℤ × ℤ) (b' a' : ℕ) :
    (tryAdopt inp s b a t).indices b' a' = t ∨
    (tryAdopt inp s b a t).indices b' a' = s.indices b' a' := by
  unfold tryAdopt
  dsimp only
  split
  · simp only [writeEntry]
    split
    · exact Or.inl rfl
    · exact Or.inr rfl
  · exact Or.inr rfl

theorem foldl_pres {α : Type} (P : PMState → Prop) (f : PMState → α → PMState)
    (l : List α) (hf : ∀ s x, x ∈ l → P s → P (f s x)) (s : PMState)
    (h : P s) : P (l.foldl f s) := by
  induction l generalizing s with
  | nil => exact h
  | cons x xs ih =>
    exact ih (fun s1 y hy => hf s1 y (List.mem_cons_of_mem x hy)) _
      (hf s x (List.mem_cons_self x xs) h)

theorem propStep_zero (inp : PMInput) (even : Bool) (s : PMState) (b a : ℕ)
    (h : ZeroIdx0 s) : ZeroIdx0 (propStep inp even s b a) := by
  unfold propStep
  refine foldl_pres ZeroIdx0 _ _ ?_ s h
  intro s1 off hmem hs1 b' a'
  rcases tryAdopt_indices_cases inp s1 b a (propCand inp s1 b a off) b' a' with hc | hc
  · rw [hc]
    have hoff : off.1 = 0 := by
      simp only [propOffsets, List.mem_cons, List.not_mem_nil, or_false] at hmem
      rcases hmem with rfl | rfl <;> rfl
    unfold propCand
    dsimp only
    rw [hs1, hoff, sub_zero]
  · rw [hc]
    exact hs1 b' a'

theorem propagate_zero (inp : PMInput) (s : PMState) (i : ℕ) (h : ZeroIdx0 s) :
    ZeroIdx0 (patches_propagate inp s i) := by
  unfold patches_propagate
  exact foldl_pres ZeroIdx0 _ _
    (fun s1 ba _ hs1 => propStep_zero inp _ s1 ba.1 ba.2 hs1) s h

theorem probeChain_idx0 (inp : PMInput) (eta : ℕ → ℕ) (k b a : ℕ)
    (e0 : (ℤ × ℤ × ℤ) × ℚ) (t : ℕ) :
    (probeChain inp eta k b a e0 t).2.1.1 = e0.1.1 := by
  induction t with
  | zero => rfl
  | succ t ih =>
    show (probeStep inp eta k b a e0.1.1 t (probeChain inp eta k b a e0 t)).2.1.1 = e0.1.1
    unfold probeStep
    dsimp only
    split
    · rfl
    · exact ih

theorem search_zero (inp : PMInput) (eta : ℕ → ℕ → ℕ → ℕ) (k : ℕ)
    (s : PMState) (h : ZeroIdx0 s) : ZeroIdx0 (patches_search inp eta k s) := by
  intro b a
  by_cases hr : b < inp.R ∧ a < inp.C
  · have hw : (patches_search inp eta k s).indices b a =
        (searchLoc inp (eta b a) k b a (s.indices b a, s.scores b a)).1 := by
      simp [patches_search, hr]
    rw [hw, searchLoc_eq_probeChain]
    exact (probeChain_idx0 inp (eta b a) k b a (s.indices b a, s.scores b a) k).trans (h b a)
  · have hw : (patches_search inp eta k s).indices b a = s.indices b a := by
      simp [patches_search, hr]
    rw [hw]
    exact h b a

theorem loop_zero (inp : PMInput) (eta : ℕ → ℕ → ℕ → ℕ → ℕ) (k : ℕ)
    (s0 : PMState) (h : ZeroIdx0 s0) :
    ∀ n, ZeroIdx0 (loopStateAt inp eta k s0 n)
  | 0 => h
  | n + 1 => search_zero inp (eta n) k _
      (propagate_zero inp _ n (loop_zero inp eta k s0 h n))

/-- Claim C10: the source-index component (first coordinate) of every
Correspondence Field entry remains 0 throughout a matching run: cold-start
initialization writes only the row and column components, warm-start
upsampling writes only the row and column components, and any state whose
entries all carry source-index 0 keeps that property through every
iteration of alternating propagation (whose candidates carry a zero
offset in the source-index component) and random search (which never
modifies the source-index), so every match refers to the first grid of
the Source Pool. -/
theorem claim_C10 :
    (∀ (inp : PMInput) (eta1 eta2 : ℕ → ℕ → ℕ) (b a : ℕ),
      (coldIndices inp eta1 eta2 b a).1 = 0) ∧
    (∀ (m1 m2 : ℕ) (prev : ℕ → ℕ → ℤ × ℤ × ℤ) (b a : ℕ),
      (warmIndices m1 m2 prev b a).1 = 0) ∧
    (∀ (inp : PMInput) (eta : ℕ → ℕ → ℕ → ℕ → ℕ) (k : ℕ) (s0 : PMState),
      ZeroIdx0 s0 → ∀ n, ZeroIdx0 (loopStateAt inp eta k s0 n)) :=
  ⟨fun _ _ _ _ _ => rfl, fun _ _ _ _ _ => rfl,
   fun inp eta k s0 h n => loop_zero inp eta k s0 h n⟩

/-- Claim C10 (witness): after one full iteration from a cold start on the
concrete all-zero input, the stored source-index of the only location is
still 0; the hypothesis that the initial state has all-zero source-index
components holds definitionally for the cold start. -/
theorem claim_C10_witness :
    ((loopStateAt inpZero (fun _ _ _ _ => 0) 8
        (coldStart inpZero (fun _ _ => 0) (fun _ _ => 0)) 1).indices 0 0).1 = 0 :=
  claim_C10.2.2 inpZero (fun _ _ _ _ => 0) 8
    (coldStart inpZero (fun _ _ => 0) (fun _ _ => 0)) (fun _ _ => rfl) 1 0 0

/-! Cold-start initialization (claim C7). -/

theorem randint_mem (lo hi : ℤ) (e : ℕ) (h : lo < hi) :
    lo ≤ randint lo hi e ∧ randint lo hi e < hi := by
  unfold randint
  have h1 : 0 ≤ (e : ℤ) % (hi - lo) :=
    Int.emod_nonneg (e : ℤ) (by omega)
  have h2 : (e : ℤ) % (hi - lo) < hi - lo :=
    Int.emod_lt_of_pos (e : ℤ) (by omega)
  omega

/-- The claim-side cold start, as claim C7 words it: the source-index is
drawn when the Source Pool contains more than one grid, and the row and
column are drawn from the interior. -/
def coldIndicesSpecDraw (inp : PMInput) (eta0 eta1 eta2 : ℕ → ℕ → ℕ)
    (b a : ℕ) : ℤ × ℤ × ℤ :=
  (if 1 < inp.n then randint 0 (inp.n : ℤ) (eta0 b a) else 0,
   randint 1 ((inp.D2 : ℤ) - 1) (eta1 b a),
   randint 1 ((inp.D3 : ℤ) - 1) (eta2 b a))

/-- The all-zero input with a Source Pool of two grids. -/
def inpPool2 : PMInput := { inpZero with n := 2 }

/-- Claim C7 (counterexample): with a Source Pool of two grids, the code's
cold start still writes source-index 0 at every location, while the
claimed behaviour draws it (here the draw yields 1): the code never draws
the source-index. -/
theorem claim_C7_cex :
    (coldIndices inpPool2 (fun _ _ => 1) (fun _ _ => 1) 0 0).1 = 0 ∧
    (coldIndicesSpecDraw inpPool2 (fun _ _ => 1) (fun _ _ => 1)
      (fun _ _ => 1) 0 0).1 = 1 := by
  constructor
  · rfl
  · decide

/-- The amended cold start: row and column drawn uniformly from the
interior, source-index always 0 regardless of pool size, scores computed
by the patch score function. -/
def coldStartSpecAmended (inp : PMInput) (eta1 eta2 : ℕ → ℕ → ℕ) : PMState where
  indices b a := (0, randint 1 ((inp.D2 : ℤ) - 1) (eta1 b a),
    randint 1 ((inp.D3 : ℤ) - 1) (eta2 b a))
  scores b a := patches_score inp 0 (randint 1 ((inp.D2 : ℤ) - 1) (eta1 b a))
    (randint 1 ((inp.D3 : ℤ) - 1) (eta2 b a)) b a

/-- Claim C7 (amended): cold-start initialization assigns every target
location a uniformly random interior source location with row and column
each drawn from [1, dim-2] and then computes each location's score with
the patch score function; the source-index is never drawn and is always
0, whatever the Source Pool size. -/
theorem claim_C7 (inp : PMInput) (eta1 eta2 : ℕ → ℕ → ℕ)
    (h2 : 3 ≤ inp.D2) (h3 : 3 ≤ inp.D3) :
    coldStart inp eta1 eta2 = coldStartSpecAmended inp eta1 eta2 ∧
    (∀ b a : ℕ,
      1 ≤ ((coldStart inp eta1 eta2).indices b a).2.1 ∧
      ((coldStart inp eta1 eta2).indices b a).2.1 ≤ (inp.D2 : ℤ) - 2 ∧
      1 ≤ ((coldStart inp eta1 eta2).indices b a).2.2 ∧
      ((coldStart inp eta1 eta2).indices b a).2.2 ≤ (inp.D3 : ℤ) - 2) := by
  constructor
  · rfl
  · intro b a
    have hr := randint_mem 1 ((inp.D2 : ℤ) - 1) (eta1 b a) (by omega)
    have hc := randint_mem 1 ((inp.D3 : ℤ) - 1) (eta2 b a) (by omega)
    have hidx : (coldStart inp eta1 eta2).indices b a =
        (0, randint 1 ((inp.D2 : ℤ) - 1) (eta1 b a),
         randint 1 ((inp.D3 : ℤ) - 1) (eta2 b a)) := rfl
    rw [hidx]
    dsimp only
    exact ⟨hr.1, by omega, hc.1, by omega⟩

/-- Claim C7 (witness): the amended statement applied at the concrete
all-zero input with dimensions 4. -/
theorem claim_C7_witness :
    coldStart inpZero (fun _ _ => 5) (fun _ _ => 9) =
      coldStartSpecAmended inpZero (fun _ _ => 5) (fun _ _ => 9) ∧
    1 ≤ ((coldStart inpZero (fun _ _ => 5) (fun _ _ => 9)).indices 0 0).2.1 ∧
    ((coldStart inpZero (fun _ _ => 5) (fun _ _ => 9)).indices 0 0).2.1 ≤
      (inpZero.D2 : ℤ) - 2 :=
  ⟨(claim_C7 inpZero (fun _ _ => 5) (fun _ _ => 9) (by decide) (by decide)).1,
   ((claim_C7 inpZero (fun _ _ => 5) (fun _ _ => 9) (by decide) (by decide)).2 0 0).1,
   ((claim_C7 inpZero (fun _ _ => 5) (fun _ _ => 9) (by decide) (by decide)).2 0 0).2.1⟩

/-! The diversity-bias computation (claim C8, doodle.py lines 484-503). -/

/-- Gram matrix entry of a feature array over its spatial positions:
the channel-pair second moment, normalised by the number of positions. -/
def gram (H W : ℕ) (g : ℕ → ℤ → ℤ → ℚ) (c1 c2 : ℕ) : ℚ :=
  (∑ y ∈ Finset.range H, ∑ x ∈ Finset.range W, g c1 y x * g c2 y x) /
    ((H : ℚ) * (W : ℚ))

/-- Embedding of the bias computation (doodle.py lines 484-503).  The bias
array is zero-initialised with shape (n, D2, D3); the loop then assigns,
for every spatial location (y, x) of the first source grid, the sum over
channel pairs of (pixel outer-product Gram minus target Gram) times
(source Gram minus target Gram), scaled by the variety coefficient.
fFull is the target feature array of spatial shape H x W and bufFull the
(single-grid) source feature array of spatial shape D2 x D3, both over Cg
channels. -/
def computeBiases (Cg H W D2 D3 : ℕ) (fFull bufFull : ℕ → ℤ → ℤ → ℚ)
    (variety : ℚ) : ℤ → ℤ → ℤ → ℚ :=
  fun i0 y x =>
    if i0 = 0 ∧ 0 ≤ y ∧ y < D2 ∧ 0 ≤ x ∧ x < D3 then
      (∑ c1 ∈ Finset.range Cg, ∑ c2 ∈ Finset.range Cg,
        (bufFull c1 y x * bufFull c2 y x - gram H W fFull c1 c2) *
          (gram D2 D3 bufFull c1 c2 - gram H W fFull c1 c2)) * variety
    else 0

/-- The claimed bias value: the variety coefficient times the sum over
channel pairs of (pixel-level outer-product Gram minus target Gram) times
(source Gram minus target Gram). -/
def biasSpecFormula (Cg H W D2 D3 : ℕ) (fFull bufFull : ℕ → ℤ → ℤ → ℚ)
    (variety : ℚ) (y x : ℤ) : ℚ :=
  variety * ∑ c1 ∈ Finset.range Cg, ∑ c2 ∈ Finset.range Cg,
    (bufFull c1 y x * bufFull c2 y x - gram H W fFull c1 c2) *
      (gram D2 D3 bufFull c1 c2 - gram H W fFull c1 c2)

/-- Claim C8: the diversity bias at every source location equals the sum
over channel pairs of (pixel-level outer-product Gram minus target Gram)
times (source Gram minus target Gram), scaled by the user-supplied variety
coefficient; when the variety coefficient is zero every bias value is
zero, and candidate selection under an identically-zero bias field reduces
to comparison of raw patch scores (pure nearest-neighbour). -/
theorem claim_C8 (Cg H W D2 D3 : ℕ) (fFull bufFull : ℕ → ℤ → ℤ → ℚ)
    (variety : ℚ) :
    (∀ y x : ℤ, 0 ≤ y → y < D2 → 0 ≤ x → x < D3 →
      computeBiases Cg H W D2 D3 fFull bufFull variety 0 y x =
        biasSpecFormula Cg H W D2 D3 fFull bufFull variety y x) ∧
    (variety = 0 →
      ∀ i0 y x : ℤ, computeBiases Cg H W D2 D3 fFull bufFull variety i0 y x = 0) ∧
    (∀ (inp : PMInput), (∀ x y z : ℤ, inp.biases x y z = 0) →
      ∀ (s : PMState) (b a : ℕ) (t : ℤ × ℤ × ℤ),
        tryAdopt inp s b a t =
          if patches_score inp t.1 t.2.1 t.2.2 b a > s.scores b a then
            writeEntry s b a t (patches_score inp t.1 t.2.1 t.2.2 b a)
          else s) := by
  refine ⟨?_, ?_, ?_⟩
  · intro y x hy0 hy hx0 hx
    unfold computeBiases biasSpecFormula
    rw [if_pos ⟨rfl, hy0, hy, hx0, hx⟩, mul_comm]
  · intro hv i0 y x
    unfold computeBiases
    split
    · rw [hv, mul_zero]
    · rfl
  · intro inp hbz s b a t
    unfold tryAdopt biasAt
    simp only [hbz, add_zero]

/-- Claim C8 (witness): the bias formula evaluated at the concrete
one-channel constant arrays, with the location hypotheses discharged at
(y, x) = (0, 0). -/
theorem claim_C8_witness :
    computeBiases 1 1 1 1 1 (fun _ _ _ => 1) (fun _ _ _ => 2) 7 0 0 0 =
      biasSpecFormula 1 1 1 1 1 (fun _ _ _ => 1) (fun _ _ _ => 2) 7 0 0 :=
  (claim_C8 1 1 1 1 1 (fun _ _ _ => 1) (fun _ _ _ => 2) 7).1 0 0
    (by decide) (by decide) (by decide) (by decide)

/-! The Reconstructor (claim C9): evaluate_feature gathers the full 3x3
source patch of every matched location (doodle.py lines 535-543) and
merges the overlapping patches by averaging through sklearn's
reconstruct_from_patches_2d (line 545). -/

/-- The gathered patch of target location (i, j): element (p, q) of
channel c is the source value at the matched coordinates offset by
(p - 1, q - 1), exactly the 3x3 block concatenated on lines 539-541. -/
def gatherPatch (B : ℤ → ℕ → ℤ → ℤ → ℚ) (idx : ℕ → ℕ → ℤ × ℤ × ℤ)
    (i j p q c : ℕ) : ℚ :=
  B (idx i j).1 c ((idx i j).2.1 + ((p : ℤ) - 1)) ((idx i j).2.2 + ((q : ℤ) - 1))

/-- Embedding of sklearn's reconstruct_from_patches_2d for 3x3 patches on
an output of spatial shape H x W: patch (i, j) is added onto the block
[i, i+3) x [j, j+3), and each destination element is divided by
min(i+1, p, H-i) * min(j+1, p, W-j), the closed form of the number of
blocks covering it. -/
def reconstructFromPatches (patch : ℕ → ℕ → ℕ → ℕ → ℕ → ℚ) (H W : ℕ)
    (y x c : ℕ) : ℚ :=
  (∑ i ∈ Finset.range (H - 2), ∑ j ∈ Finset.range (W - 2),
      if (i ≤ y ∧ y < i + 3) ∧ (j ≤ x ∧ x < j + 3) then
        patch i j (y - i) (x - j) c
      else 0) /
    ((min (y + 1) (min 3 (H - y)) * min (x + 1) (min 3 (W - x)) : ℕ) : ℚ)

/-- The output feature grid of evaluate_feature: gather, then merge. -/
def evaluateFeatureOut (B : ℤ → ℕ → ℤ → ℤ → ℚ) (idx : ℕ → ℕ → ℤ × ℤ × ℤ)
    (H W : ℕ) (y x c : ℕ) : ℚ :=
  reconstructFromPatches (gatherPatch B idx) H W y x c

/-- The target locations whose gathered patches overlap destination
element (y, x). -/
def contributors (H W y x : ℕ) : Finset (ℕ × ℕ) :=
  (Finset.range (H - 2) ×ˢ Finset.range (W - 2)).filter
    (fun ij => (ij.1 ≤ y ∧ y < ij.1 + 3) ∧ (ij.2 ≤ x ∧ x < ij.2 + 3))

theorem rowContrib_card (H y : ℕ) (hH : 4 ≤ H) (hy : y < H) :
    ((Finset.range (H - 2)).filter (fun i => i ≤ y ∧ y < i + 3)).card =
      min (y + 1) (min 3 (H - y)) := by
  have hset : (Finset.range (H - 2)).filter (fun i => i ≤ y ∧ y < i + 3) =
      Finset.Ico (y + 1 - 3) (min (y + 1) (H - 2)) := by
    ext i
    simp only [Finset.mem_filter, Finset.mem_range, Finset.mem_Ico]
    omega
  rw [hset, Nat.card_Ico]
  rcases le_total (y + 1) (H - 2) with h1 | h1
  · rw [min_eq_left h1]
    rcases le_total (3 : ℕ) (H - y) with h2 | h2
    · rw [min_eq_left h2]
      rcases le_total (y + 1) 3 with h3 | h3
      · rw [min_eq_left h3]
        omega
      · rw [min_eq_right h3]
        omega
    · rw [min_eq_right h2]
      rcases le_total (y + 1) (H - y) with h3 | h3
      · rw [min_eq_left h3]
        omega
      · rw [min_eq_right h3]
        omega
  · rw [min_eq_right h1]
    rcases le_total (3 : ℕ) (H - y) with h2 | h2
    · rw [min_eq_left h2]
      rcases le_total (y + 1) 3 with h3 | h3
      · rw [min_eq_left h3]
        omega
      · rw [min_eq_right h3]
        omega
    · rw [min_eq_right h2]
      rcases le_total (y + 1) (H - y) with h3 | h3
      · rw [min_eq_left h3]
        omega
      · rw [min_eq_right h3]
        omega

theorem contributors_card (H W y x : ℕ) (hH : 4 ≤ H) (hW : 4 ≤ W)
    (hy : y < H) (hx : x < W) :
    (contributors H W y x).card =
      min (y + 1) (min 3 (H - y)) * min (x + 1) (min 3 (W - x)) := by
  unfold contributors
  rw [Finset.filter_product (fun i => i ≤ y ∧ y < i + 3)
    (fun j => j ≤ x ∧ x < j + 3), Finset.card_product,
    rowContrib_card H y hH hy, rowContrib_card W x hW hx]

/-- Claim C9 (counterexample): on a 3x3 output the divisor used by the
code is not the number of contributions.  With one constant-1 gathered
patch, the centre element (1,1) receives exactly one contribution whose
average is 1, but the code divides the accumulated value by
min(2,3,2) * min(2,3,2) = 4 and outputs 1/4. -/
theorem claim_C9_cex :
    (contributors 3 3 1 1).card = 1 ∧
    evaluateFeatureOut (fun _ _ _ _ => 1) (fun _ _ => (0, 1, 1)) 3 3 1 1 0 = 1 / 4 ∧
    ¬ evaluateFeatureOut (fun _ _ _ _ => 1) (fun _ _ => (0, 1, 1)) 3 3 1 1 0 =
        (∑ ij ∈ contributors 3 3 1 1,
          (fun (_ : ℤ) (_ : ℕ) (_ : ℤ) (_ : ℤ) => (1 : ℚ))
            ((fun (_ _ : ℕ) => ((0 : ℤ), (1 : ℤ), (1 : ℤ))) ij.1 ij.2).1 0
            (((fun (_ _ : ℕ) => ((0 : ℤ), (1 : ℤ), (1 : ℤ))) ij.1 ij.2).2.1 +
              (((1 : ℤ) - ij.1) - 1))
            (((fun (_ _ : ℕ) => ((0 : ℤ), (1 : ℤ), (1 : ℤ))) ij.1 ij.2).2.2 +
              (((1 : ℤ) - ij.2) - 1))) /
          ((contributors 3 3 1 1).card : ℚ) := by
  refine ⟨by decide, by decide, by decide⟩

/-- Claim C9 (amended): given the final Correspondence Field, the
Reconstructor gathers for every target location the full 3x3 source patch
centred at its matched coordinates and merges the overlapping patches
into a dense output grid of the target's spatial shape; whenever both
spatial dimensions are at least 4, each destination element is the
average (sum divided by count) of all patch contributions landing on it,
and every destination element receives at least one contribution.  (When
a spatial dimension equals exactly 3 the closed-form divisor of the
merge exceeds the contribution count on the middle row or column, so the
output there is not the average of the contributions.) -/
theorem claim_C9 (B : ℤ → ℕ → ℤ → ℤ → ℚ) (idx : ℕ → ℕ → ℤ × ℤ × ℤ)
    (H W y x c : ℕ) (hH : 4 ≤ H) (hW : 4 ≤ W) (hy : y < H) (hx : x < W) :
    (contributors H W y x).Nonempty ∧
    evaluateFeatureOut B idx H W y x c =
      (∑ ij ∈ contributors H W y x,
        B (idx ij.1 ij.2).1 c
          ((idx ij.1 ij.2).2.1 + (((y : ℤ) - ij.1) - 1))
          ((idx ij.1 ij.2).2.2 + (((x : ℤ) - ij.2) - 1))) /
        ((contributors H W y x).card : ℚ) := by
  constructor
  · rw [← Finset.card_pos, contributors_card H W y x hH hW hy hx]
    have h1 : 1 ≤ min (y + 1) (min 3 (H - y)) :=
      le_min (by omega) (le_min (by omega) (by omega))
    have h2 : 1 ≤ min (x + 1) (min 3 (W - x)) :=
      le_min (by omega) (le_min (by omega) (by omega))
    exact Nat.mul_le_mul h1 h2
  · unfold evaluateFeatureOut reconstructFromPatches
    rw [contributors_card H W y x hH hW hy hx]
    congr 1
    rw [← Finset.sum_product', ← Finset.sum_filter]
    unfold contributors
    apply Finset.sum_congr rfl
    intro ij hij
    rw [Finset.mem_filter] at hij
    obtain ⟨-, ⟨hiy, -⟩, hjx, -⟩ := hij
    unfold gatherPatch
    have h1 : ((y - ij.1 : ℕ) : ℤ) - 1 = ((y : ℤ) - ij.1) - 1 := by omega
    have h2 : ((x - ij.2 : ℕ) : ℤ) - 1 = ((x : ℤ) - ij.2) - 1 := by omega
    rw [h1, h2]

/-- Claim C9 (witness): the reconstruction identity applied at the
concrete 4x4 output with a constant source and a constant field. -/
theorem claim_C9_witness :
    (contributors 4 4 0 0).Nonempty ∧
    evaluateFeatureOut (fun _ _ _ _ => 1) (fun _ _ => (0, 1, 1)) 4 4 0 0 0 =
      (∑ ij ∈ contributors 4 4 0 0,
        (fun (_ : ℤ) (_ : ℕ) (_ : ℤ) (_ : ℤ) => (1 : ℚ)) ((fun (_ _ : ℕ) => ((0 : ℤ), (1 : ℤ), (1 : ℤ))) ij.1 ij.2).1 0
          (((fun (_ _ : ℕ) => ((0 : ℤ), (1 : ℤ), (1 : ℤ))) ij.1 ij.2).2.1 + (((0 : ℤ) - ij.1) - 1))
          (((fun (_ _ : ℕ) => ((0 : ℤ), (1 : ℤ), (1 : ℤ))) ij.1 ij.2).2.2 + (((0 : ℤ) - ij.2) - 1))) /
        ((contributors 4 4 0 0).card : ℚ) :=
  claim_C9 (fun _ _ _ _ => 1) (fun _ _ => (0, 1, 1)) 4 4 0 0 0
    (by decide) (by decide) (by decide) (by decide)

/-! Termination of the convergence loop (claim C5).  The passes only ever
write entries whose coordinates come from a fixed finite set (clamped
spatial coordinates paired with one of the initially present
source-indices) and whose score is the patch score of those coordinates,
so each location's bias-adjusted score ranges over a finite set; being
non-decreasing, it stabilises, after which no entry changes, the mean
score stops moving, and any positive quality threshold stops the loop. -/

/-- The entry of one location: stored coordinates and stored score. -/
def entryOf (s : PMState) (b a : ℕ) : (ℤ × ℤ × ℤ) × ℚ := (s.indices b a, s.scores b a)

/-- The source-indices present in the initial field. -/
def I0set (inp : PMInput) (s0 : PMState) : Finset ℤ :=
  (Finset.range inp.R ×ˢ Finset.range inp.C).image
    (fun ba => (s0.indices ba.1 ba.2).1)

/-- The values the row clamp can produce. -/
def clampRangeY (inp : PMInput) : Finset ℤ :=
  Finset.Icc (min 1 ((inp.D2 : ℤ) - 2)) (max 1 ((inp.D2 : ℤ) - 2))

/-- The values the column clamp can produce. -/
def clampRangeX (inp : PMInput) : Finset ℤ :=
  Finset.Icc (min 1 ((inp.D3 : ℤ) - 2)) (max 1 ((inp.D3 : ℤ) - 2))

/-- The coordinate triples the passes can write. -/
def Kset (inp : PMInput) (s0 : PMState) : Finset (ℤ × ℤ × ℤ) :=
  I0set inp s0 ×ˢ clampRangeY inp ×ˢ clampRangeX inp

/-- The entries one location can ever hold: its initial entry, or a
writable coordinate triple paired with its patch score. -/
def Eset (inp : PMInput) (s0 : PMState) (b a : ℕ) :
    Finset ((ℤ × ℤ × ℤ) × ℚ) :=
  insert (entryOf s0 b a)
    ((Kset inp s0).image (fun t => (t, patches_score inp t.1 t.2.1 t.2.2 b a)))

/-- Every in-range location holds one of its finitely many possible
entries. -/
def EInv (inp : PMInput) (s0 : PMState) (s : PMState) : Prop :=
  ∀ b a : ℕ, b < inp.R → a < inp.C → entryOf s b a ∈ Eset inp s0 b a

theorem clampY_mem_range (inp : PMInput) (x : ℤ) :
    clampY inp x ∈ clampRangeY inp := by
  unfold clampY clampRangeY
  rw [Finset.mem_Icc]
  constructor
  · exact le_min (min_le_right 1 _) ((min_le_left 1 _).trans (le_max_right x 1))
  · exact (min_le_left _ _).trans (le_max_right 1 _)

theorem clampX_mem_range (inp : PMInput) (x : ℤ) :
    clampX inp x ∈ clampRangeX inp := by
  unfold clampX clampRangeX
  rw [Finset.mem_Icc]
  constructor
  · exact le_min (min_le_right 1 _) ((min_le_left 1 _).trans (le_max_right x 1))
  · exact (min_le_left _ _).trans (le_max_right 1 _)

theorem posClamp_lt (m : ℕ) (hm : 0 < m) (z : ℤ) : posClamp m z < m := by
  unfold posClamp
  have h1 : min ((m : ℤ) - 1) (max z 0) ≤ (m : ℤ) - 1 := min_le_left _ _
  have h2 : 0 ≤ min ((m : ℤ) - 1) (max z 0) :=
    le_min (by omega) (le_max_right z 0)
  omega

theorem entry_first_mem {inp : PMInput} {s0 s : PMState}
    (hInv : EInv inp s0 s) {b a : ℕ} (hb : b < inp.R) (ha : a < inp.C) :
    (s.indices b a).1 ∈ I0set inp s0 := by
  have hmem := hInv b a hb ha
  unfold Eset at hmem
  rcases Finset.mem_insert.1 hmem with he | he
  · have : (s.indices b a).1 = (s0.indices b a).1 := by
      unfold entryOf at he
      exact congrArg (fun e => e.1.1) he
    rw [this]
    exact Finset.mem_image.2 ⟨(b, a), Finset.mem_product.2
      ⟨Finset.mem_range.2 hb, Finset.mem_range.2 ha⟩, rfl⟩
  · rcases Finset.mem_image.1 he with ⟨t, ht, hte⟩
    have : (s.indices b a).1 = t.1 := by
      unfold entryOf at hte
      have := congrArg (fun e => e.1.1) hte
      exact this.symm
    rw [this]
    exact (Finset.mem_product.1 ht).1

theorem propCand_mem_K {inp : PMInput} {s0 s : PMState}
    (hInv : EInv inp s0 s) (hR : 0 < inp.R) (hC : 0 < inp.C)
    (b a : ℕ) (off : ℤ × ℤ × ℤ) (hoff : off.1 = 0) :
    propCand inp s b a off ∈ Kset inp s0 := by
  unfold propCand Kset
  rw [Finset.mem_product]
  dsimp only
  refine ⟨?_, ?_⟩
  · rw [hoff, sub_zero]
    exact entry_first_mem hInv (posClamp_lt inp.R hR _) (posClamp_lt inp.C hC _)
  · rw [Finset.mem_product]
    exact ⟨clampY_mem_range inp _, clampX_mem_range inp _⟩

theorem tryAdopt_entry_cases (inp : PMInput) (s : PMState) (b a : ℕ)
    (t : ℤ × ℤ × ℤ) (b' a' : ℕ) :
    entryOf (tryAdopt inp s b a t) b' a' =
      (t, patches_score inp t.1 t.2.1 t.2.2 b a) ∧ b' = b ∧ a' = a ∨
    entryOf (tryAdopt inp s b a t) b' a' = entryOf s b' a' := by
  unfold tryAdopt entryOf
  dsimp only
  split
  · simp only [writeEntry]
    by_cases hba : b' = b ∧ a' = a
    · rw [if_pos hba, if_pos hba]
      exact Or.inl ⟨rfl, hba⟩
    · rw [if_neg hba, if_neg hba]
      exact Or.inr rfl
  · exact Or.inr rfl

theorem tryAdopt_EInv {inp : PMInput} {s0 s : PMState}
    (hInv : EInv inp s0 s) (b a : ℕ) (t : ℤ × ℤ × ℤ)
    (ht : t ∈ Kset inp s0) : EInv inp s0 (tryAdopt inp s b a t) := by
  intro b' a' hb ha
  rcases tryAdopt_entry_cases inp s b a t b' a' with ⟨he, rfl, rfl⟩ | he
  · rw [he]
    unfold Eset
    exact Finset.mem_insert_of_mem (Finset.mem_image.2 ⟨t, ht, rfl⟩)
  · rw [he]
    exact hInv b' a' hb ha

theorem propStep_EInv {inp : PMInput} {s0 s : PMState} (even : Bool)
    (hInv : EInv inp s0 s) (hR : 0 < inp.R) (hC : 0 < inp.C) (b a : ℕ) :
    EInv inp s0 (propStep inp even s b a) := by
  unfold propStep
  refine foldl_pres (EInv inp s0) _ _ ?_ s hInv
  intro s1 off hmem h1
  refine tryAdopt_EInv h1 b a _ (propCand_mem_K h1 hR hC b a off ?_)
  simp only [propOffsets, List.mem_cons, List.not_mem_nil, or_false] at hmem
  rcases hmem with rfl | rfl <;> rfl

theorem propagate_EInv {inp : PMInput} {s0 s : PMState} (i : ℕ)
    (hInv : EInv inp s0 s) : EInv inp s0 (patches_propagate inp s i) := by
  unfold patches_propagate
  refine foldl_pres (EInv inp s0) _ _ ?_ s hInv
  intro s1 ba hmem h1
  have hr := raster_mem hmem
  exact propStep_EInv _ h1 (Nat.lt_of_le_of_lt (Nat.zero_le ba.1) hr.1)
    (Nat.lt_of_le_of_lt (Nat.zero_le ba.2) hr.2) ba.1 ba.2

theorem probeChain_Eset {inp : PMInput} {s0 : PMState} (eta : ℕ → ℕ)
    (k b a : ℕ) (e0 : (ℤ × ℤ × ℤ) × ℚ) (he0 : e0 ∈ Eset inp s0 b a)
    (hi0 : e0.1.1 ∈ I0set inp s0) (t : ℕ) :
    (probeChain inp eta k b a e0 t).2 ∈ Eset inp s0 b a := by
  induction t with
  | zero => exact he0
  | succ t ih =>
    show (probeStep inp eta k b a e0.1.1 t (probeChain inp eta k b a e0 t)).2 ∈ _
    unfold probeStep
    dsimp only
    split
    · refine Finset.mem_insert_of_mem (Finset.mem_image.2 ⟨_, ?_, rfl⟩)
      exact Finset.mem_product.2 ⟨hi0, Finset.mem_product.2
        ⟨clampY_mem_range inp _, clampX_mem_range inp _⟩⟩
    · exact ih

theorem search_EInv {inp : PMInput} {s0 s : PMState} (eta : ℕ → ℕ → ℕ → ℕ)
    (k : ℕ) (hInv : EInv inp s0 s) : EInv inp s0 (patches_search inp eta k s) := by
  intro b a hb ha
  have he : entryOf (patches_search inp eta k s) b a =
      (probeChain inp (eta b a) k b a (s.indices b a, s.scores b a) k).2 := by
    unfold entryOf patches_search
    dsimp only
    rw [if_pos ⟨hb, ha⟩, if_pos ⟨hb, ha⟩, searchLoc_eq_probeChain]
  rw [he]
  exact probeChain_Eset (eta b a) k b a _ (hInv b a hb ha)
    (entry_first_mem hInv hb ha) k

theorem loop_EInv (inp : PMInput) (eta : ℕ → ℕ → ℕ → ℕ → ℕ) (k : ℕ)
    (s0 : PMState) : ∀ n, EInv inp s0 (loopStateAt inp eta k s0 n)
  | 0 => fun _ _ _ _ => Finset.mem_insert_self _ _
  | n + 1 => search_EInv (eta n) k
      (propagate_EInv n (loop_EInv inp eta k s0 n))

/-- The bias-adjusted value of an entry. -/
def adjVal (inp : PMInput) (e : (ℤ × ℤ × ℤ) × ℚ) : ℚ := e.2 + biasAt inp e.1

/-- The finitely many bias-adjusted values one location can hold. -/
def Vset (inp : PMInput) (s0 : PMState) (b a : ℕ) : Finset ℚ :=
  (Eset inp s0 b a).image (adjVal inp)

theorem mono_finset_stab (f : ℕ → ℚ) (hstep : ∀ n, f n ≤ f (n + 1))
    (V : Finset ℚ) (hV : ∀ n, f n ∈ V) :
    ∃ N, ∀ n, N ≤ n → f n = f N := by
  classical
  have hmono : Monotone f := monotone_nat_of_le_succ hstep
  have hne : (V.filter fun v => ∃ n, f n = v).Nonempty :=
    ⟨f 0, Finset.mem_filter.2 ⟨hV 0, 0, rfl⟩⟩
  obtain ⟨-, N, hN⟩ :=
    Finset.mem_filter.1 ((V.filter fun v => ∃ n, f n = v).max'_mem hne)
  refine ⟨N, fun n hn => le_antisymm ?_ (hmono hn)⟩
  rw [hN]
  exact Finset.le_max' _ _ (Finset.mem_filter.2 ⟨hV n, n, rfl⟩)

theorem loop_improving (inp : PMInput) (eta : ℕ → ℕ → ℕ → ℕ → ℕ) (k : ℕ)
    (s0 : PMState) (n : ℕ) :
    Improving inp (loopStateAt inp eta k s0 n) (loopStateAt inp eta k s0 (n + 1)) :=
  Improving.comp (propagate_improving inp _ n) (search_improving inp (eta n) k _)

/-- Claim C5 (amended): the convergence loop alternates one propagation
pass and one random-search pass for successive pass indices 0, 1, 2, ...,
always executes at least one iteration (the stop test compares the mean
score before and after an iteration), has no maximum-iteration cap, and
stops exactly when the change in the mean score over the whole field
produced by an iteration falls below the quality threshold; it terminates
for every input whose quality threshold is positive.  (With a
non-positive threshold it can run forever, so termination for every input
fails; see the counterexample.) -/
theorem claim_C5 (inp : PMInput) (eta : ℕ → ℕ → ℕ → ℕ → ℕ) (k : ℕ)
    (s0 : PMState) (q : ℚ) (hq : 0 < q) : LoopTerminates inp eta k s0 q := by
  classical
  have hmono : ∀ (p : ℕ × ℕ) (n : ℕ),
      adjScore inp (loopStateAt inp eta k s0 n) p.1 p.2 ≤
        adjScore inp (loopStateAt inp eta k s0 (n + 1)) p.1 p.2 :=
    fun p n => (loop_improving inp eta k s0 n).adj_le p.1 p.2
  have hmem : ∀ (p : ℕ × ℕ), p.1 < inp.R → p.2 < inp.C → ∀ n : ℕ,
      adjScore inp (loopStateAt inp eta k s0 n) p.1 p.2 ∈ Vset inp s0 p.1 p.2 := by
    intro p h1 h2 n
    exact Finset.mem_image.2 ⟨entryOf (loopStateAt inp eta k s0 n) p.1 p.2,
      loop_EInv inp eta k s0 n p.1 p.2 h1 h2, rfl⟩
  have hstab : ∀ p : ℕ × ℕ, ∃ N, p.1 < inp.R → p.2 < inp.C → ∀ n, N ≤ n →
      adjScore inp (loopStateAt inp eta k s0 n) p.1 p.2 =
        adjScore inp (loopStateAt inp eta k s0 N) p.1 p.2 := by
    intro p
    by_cases hp : p.1 < inp.R ∧ p.2 < inp.C
    · obtain ⟨N, hN⟩ := mono_finset_stab
        (fun n => adjScore inp (loopStateAt inp eta k s0 n) p.1 p.2)
        (hmono p) (Vset inp s0 p.1 p.2) (hmem p hp.1 hp.2)
      exact ⟨N, fun _ _ => hN⟩
    · exact ⟨0, fun h1 h2 => absurd ⟨h1, h2⟩ hp⟩
  choose Nf hNf using hstab
  refine ⟨(Finset.range inp.R ×ˢ Finset.range inp.C).sup Nf, ?_⟩
  set N := (Finset.range inp.R ×ˢ Finset.range inp.C).sup Nf with hNdef
  have hadj : ∀ b a : ℕ, b < inp.R → a < inp.C →
      adjScore inp (loopStateAt inp eta k s0 (N + 1)) b a =
        adjScore inp (loopStateAt inp eta k s0 N) b a := by
    intro b a hb ha
    have hmemL : (b, a) ∈ Finset.range inp.R ×ˢ Finset.range inp.C :=
      Finset.mem_product.2 ⟨Finset.mem_range.2 hb, Finset.mem_range.2 ha⟩
    have hle : Nf (b, a) ≤ N := Finset.le_sup hmemL
    exact (hNf (b, a) hb ha (N + 1) (le_trans hle (Nat.le_succ N))).trans
      (hNf (b, a) hb ha N hle).symm
  have hentry : ∀ b a : ℕ, b < inp.R → a < inp.C →
      (loopStateAt inp eta k s0 (N + 1)).scores b a =
        (loopStateAt inp eta k s0 N).scores b a := by
    intro b a hb ha
    rcases loop_improving inp eta k s0 N b a with ⟨-, hs⟩ | hlt
    · exact hs
    · exact absurd hlt (by rw [hadj b a hb ha]; exact lt_irrefl _)
  unfold stopsAt
  have hmean : meanScore inp (loopStateAt inp eta k s0 (N + 1)) =
      meanScore inp (loopStateAt inp eta k s0 N) := by
    unfold meanScore
    congr 1
    apply Finset.sum_congr rfl
    intro b hb
    apply Finset.sum_congr rfl
    intro a ha
    exact hentry b a (Finset.mem_range.1 hb) (Finset.mem_range.1 ha)
  rw [hmean, sub_self]
  exact hq

theorem zero_prop_fixed (i : ℕ) : patches_propagate inpZero sZero i = sZero := by
  unfold patches_propagate
  cases h : (i % 2 == 0) <;> rfl

set_option maxRecDepth 8000 in
theorem zero_iter_fixed (i : ℕ) :
    patches_search inpZero (fun _ _ _ => 0) 8 (patches_propagate inpZero sZero i) = sZero := by
  rw [zero_prop_fixed i]
  apply PMState.ext <;> funext b a
  · show (if b < inpZero.R ∧ a < inpZero.C then _ else sZero.indices b a) = sZero.indices b a
    by_cases hr : b < inpZero.R ∧ a < inpZero.C
    · rw [if_pos hr]
      have hR : inpZero.R = 1 := rfl
      have hC : inpZero.C = 1 := rfl
      have hb : b = 0 := by omega
      have ha : a = 0 := by omega
      subst hb
      subst ha
      decide
    · rw [if_neg hr]
  · show (if b < inpZero.R ∧ a < inpZero.C then _ else sZero.scores b a) = sZero.scores b a
    by_cases hr : b < inpZero.R ∧ a < inpZero.C
    · rw [if_pos hr]
      have hR : inpZero.R = 1 := rfl
      have hC : inpZero.C = 1 := rfl
      have hb : b = 0 := by omega
      have ha : a = 0 := by omega
      subst hb
      subst ha
      decide
    · rw [if_neg hr]

theorem zero_loop_fixed :
    ∀ n, loopStateAt inpZero (fun _ _ _ _ => 0) 8 sZero n = sZero
  | 0 => rfl
  | n + 1 => by
    show patches_search inpZero (fun _ _ _ => 0) 8
      (patches_propagate inpZero
        (loopStateAt inpZero (fun _ _ _ _ => 0) 8 sZero n) n) = sZero
    rw [zero_loop_fixed n]
    exact zero_iter_fixed n

/-- Claim C5 (counterexample): with quality threshold 0 the loop need not
terminate.  On the all-zero input from the all-zero state no pass ever
adopts anything, the mean score change is 0 at every iteration, and
0 < 0 never holds, so no iteration passes the stop test: the loop does
not terminate for every input. -/
theorem claim_C5_cex :
    ¬ LoopTerminates inpZero (fun _ _ _ _ => 0) 8 sZero 0 := by
  rintro ⟨n, hn⟩
  unfold stopsAt at hn
  rw [zero_loop_fixed (n + 1), zero_loop_fixed n, sub_self] at hn
  exact lt_irrefl 0 hn

/-- Claim C5 (witness): a concrete terminating run, the amended theorem
applied at the all-zero input with quality threshold 1. -/
theorem claim_C5_witness :
    LoopTerminates inpZero (fun _ _ _ _ => 0) 8 sZero 1 :=
  claim_C5 inpZero (fun _ _ _ _ => 0) 8 sZero 1 (by norm_num)

/-! The interior-bounds invariant (claim C4). -/

/-- A stored coordinate triple lies in the interior of its source grid:
both spatial components within [1, dim-2]. -/
def InBounds (inp : PMInput) (t : ℤ × ℤ × ℤ) : Prop :=
  1 ≤ t.2.1 ∧ t.2.1 ≤ (inp.D2 : ℤ) - 2 ∧ 1 ≤ t.2.2 ∧ t.2.2 ≤ (inp.D3 : ℤ) - 2

instance (inp : PMInput) (t : ℤ × ℤ × ℤ) : Decidable (InBounds inp t) := by
  unfold InBounds
  infer_instance

theorem clampY_inBounds (inp : PMInput) (h2 : 3 ≤ inp.D2) (x : ℤ) :
    1 ≤ clampY inp x ∧ clampY inp x ≤ (inp.D2 : ℤ) - 2 := by
  unfold clampY
  exact ⟨le_min (by omega) (le_max_right x 1), min_le_left _ _⟩

theorem clampX_inBounds (inp : PMInput) (h3 : 3 ≤ inp.D3) (x : ℤ) :
    1 ≤ clampX inp x ∧ clampX inp x ≤ (inp.D3 : ℤ) - 2 := by
  unfold clampX
  exact ⟨le_min (by omega) (le_max_right x 1), min_le_left _ _⟩

theorem propCand_inBounds (inp : PMInput) (h2 : 3 ≤ inp.D2) (h3 : 3 ≤ inp.D3)
    (s : PMState) (b a : ℕ) (off : ℤ × ℤ × ℤ) :
    InBounds inp (propCand inp s b a off) := by
  unfold propCand InBounds
  dsimp only
  obtain ⟨hy1, hy2⟩ := clampY_inBounds inp h2 _
  obtain ⟨hx1, hx2⟩ := clampX_inBounds inp h3 _
  exact ⟨hy1, hy2, hx1, hx2⟩

/-- Relation between a state and a pass result: every location either kept
its stored coordinates or now holds an interior triple. -/
def BoundsOr (inp : PMInput) (s t : PMState) : Prop :=
  ∀ b a : ℕ, t.indices b a = s.indices b a ∨ InBounds inp (t.indices b a)

theorem BoundsOr.link {inp : PMInput} {s t u : PMState}
    (h1 : BoundsOr inp s t) (h2 : BoundsOr inp t u) : BoundsOr inp s u := by
  intro b a
  rcases h2 b a with he | hb
  · rw [he]
    exact h1 b a
  · exact Or.inr hb

theorem tryAdopt_boundsOr {inp : PMInput} (s : PMState) (b a : ℕ)
    {t : ℤ × ℤ × ℤ} (ht : InBounds inp t) :
    BoundsOr inp s (tryAdopt inp s b a t) := by
  intro b' a'
  rcases tryAdopt_indices_cases inp s b a t b' a' with hc | hc <;> rw [hc]
  · exact Or.inr ht
  · exact Or.inl rfl

theorem propagate_boundsOr (inp : PMInput) (h2 : 3 ≤ inp.D2) (h3 : 3 ≤ inp.D3)
    (s : PMState) (i : ℕ) : BoundsOr inp s (patches_propagate inp s i) := by
  unfold patches_propagate
  refine foldl_pres (BoundsOr inp s) _ _ ?_ s (fun _ _ => Or.inl rfl)
  intro s1 ba _ h1
  refine h1.link ?_
  unfold propStep
  refine foldl_pres (BoundsOr inp s1) _ _ ?_ s1 (fun _ _ => Or.inl rfl)
  intro s2 off _ hb2
  exact hb2.link (tryAdopt_boundsOr s2 ba.1 ba.2
    (propCand_inBounds inp h2 h3 s2 ba.1 ba.2 off))

theorem probeChain_bounds (inp : PMInput) (h2 : 3 ≤ inp.D2) (h3 : 3 ≤ inp.D3)
    (eta : ℕ → ℕ) (k b a : ℕ) (e0 : (ℤ × ℤ × ℤ) × ℚ) (t : ℕ) :
    (probeChain inp eta k b a e0 t).2.1 = e0.1 ∨
      InBounds inp (probeChain inp eta k b a e0 t).2.1 := by
  induction t with
  | zero => exact Or.inl rfl
  | succ t ih =>
    show (probeStep inp eta k b a e0.1.1 t (probeChain inp eta k b a e0 t)).2.1 = e0.1 ∨
      InBounds inp (probeStep inp eta k b a e0.1.1 t (probeChain inp eta k b a e0 t)).2.1
    unfold probeStep
    dsimp only
    split
    · right
      obtain ⟨hy1, hy2⟩ := clampY_inBounds inp h2 _
      obtain ⟨hx1, hx2⟩ := clampX_inBounds inp h3 _
      exact ⟨hy1, hy2, hx1, hx2⟩
    · exact ih

theorem search_boundsOr (inp : PMInput) (h2 : 3 ≤ inp.D2) (h3 : 3 ≤ inp.D3)
    (eta : ℕ → ℕ → ℕ → ℕ) (k : ℕ) (s : PMState) :
    BoundsOr inp s (patches_search inp eta k s) := by
  intro b a
  by_cases hr : b < inp.R ∧ a < inp.C
  · have hw : (patches_search inp eta k s).indices b a =
        (searchLoc inp (eta b a) k b a (s.indices b a, s.scores b a)).1 := by
      simp [patches_search, hr]
    rw [hw, searchLoc_eq_probeChain]
    exact probeChain_bounds inp h2 h3 (eta b a) k b a _ k
  · left
    simp [patches_search, hr]

theorem coldStart_inBounds (inp : PMInput) (h2 : 3 ≤ inp.D2) (h3 : 3 ≤ inp.D3)
    (eta1 eta2 : ℕ → ℕ → ℕ) (b a : ℕ) :
    InBounds inp ((coldStart inp eta1 eta2).indices b a) := by
  have hr := randint_mem 1 ((inp.D2 : ℤ) - 1) (eta1 b a) (by omega)
  have hc := randint_mem 1 ((inp.D3 : ℤ) - 1) (eta2 b a) (by omega)
  have hidx : (coldStart inp eta1 eta2).indices b a =
      (0, randint 1 ((inp.D2 : ℤ) - 1) (eta1 b a),
       randint 1 ((inp.D3 : ℤ) - 1) (eta2 b a)) := rfl
  rw [hidx]
  unfold InBounds
  dsimp only
  exact ⟨hr.1, by omega, hc.1, by omega⟩

theorem loop_inBounds (inp : PMInput) (h2 : 3 ≤ inp.D2) (h3 : 3 ≤ inp.D3)
    (eta : ℕ → ℕ → ℕ → ℕ → ℕ) (k : ℕ) (s0 : PMState)
    (h0 : ∀ b a : ℕ, InBounds inp (s0.indices b a)) :
    ∀ (n : ℕ) (b a : ℕ), InBounds inp ((loopStateAt inp eta k s0 n).indices b a)
  | 0 => h0
  | n + 1 => by
    intro b a
    have hprev := loop_inBounds inp h2 h3 eta k s0 h0 n
    have hbo : BoundsOr inp (loopStateAt inp eta k s0 n)
        (loopStateAt inp eta k s0 (n + 1)) :=
      BoundsOr.link (propagate_boundsOr inp h2 h3 _ n)
        (search_boundsOr inp h2 h3 (eta n) k _)
    rcases hbo b a with he | hb
    · rw [he]
      exact hprev b a
    · exact hb

/-- The input of the warm-start counterexample: source grids of spatial
size 8x8 (valid interior [1, 6]) and a 6x6 field, matching the shape the
upsampling of a 2x2-interior coarser field produces. -/
def inpWarm : PMInput := { inpZero with D2 := 8, D3 := 8, R := 6, C := 6 }

/-- Claim C4 (counterexample): warm-start seeding stores upsampled
coordinates without clamping.  Upsampling the constant coarser field
(0, 5, 5) doubles the coordinates to 10, and the seeded entry (0, 10, 10)
is stored as-is even though 10 lies outside the interior range [1, 6] of
the 8x8 source grid, so the bounds invariant fails after initialization
and no clamping is applied at seeding. -/
theorem claim_C4_cex :
    ((warmStart inpWarm 2 2 fun _ _ => (0, 5, 5)).indices 0 0) = (0, 10, 10) ∧
    ¬ InBounds inpWarm ((warmStart inpWarm 2 2 fun _ _ => (0, 5, 5)).indices 0 0) := by
  constructor <;> decide

/-- Claim C4 (amended): cold-start initialization draws interior
coordinates, and every entry a propagation or random-search pass writes is
clamped into [1, dim-2] before adoption (an entry the pass does not
replace is left unchanged), so along a cold-started run every stored
coordinate of every entry lies within [1, dim-2] on each spatial axis at
all times.  Warm-start seeding, however, stores upsampled entries without
clamping, so out-of-range seeded entries are possible after a warm
start (see the counterexample). -/
theorem claim_C4 (inp : PMInput) (h2 : 3 ≤ inp.D2) (h3 : 3 ≤ inp.D3) :
    (∀ (eta1 eta2 : ℕ → ℕ → ℕ) (b a : ℕ),
      InBounds inp ((coldStart inp eta1 eta2).indices b a)) ∧
    (∀ (s : PMState) (i : ℕ), BoundsOr inp s (patches_propagate inp s i)) ∧
    (∀ (s : PMState) (eta : ℕ → ℕ → ℕ → ℕ) (k : ℕ),
      BoundsOr inp s (patches_search inp eta k s)) ∧
    (∀ (eta : ℕ → ℕ → ℕ → ℕ → ℕ) (k : ℕ) (eta1 eta2 : ℕ → ℕ → ℕ) (n b a : ℕ),
      InBounds inp
        ((loopStateAt inp eta k (coldStart inp eta1 eta2) n).indices b a)) :=
  ⟨coldStart_inBounds inp h2 h3,
   propagate_boundsOr inp h2 h3,
   fun s eta k => search_boundsOr inp h2 h3 eta k s,
   fun eta k eta1 eta2 n b a => loop_inBounds inp h2 h3 eta k _
     (coldStart_inBounds inp h2 h3 eta1 eta2) n b a⟩

/-- Claim C4 (witness): the amended bounds invariant applied at the
concrete all-zero input after one cold-started iteration. -/
theorem claim_C4_witness :
    InBounds inpZero
      ((loopStateAt inpZero (fun _ _ _ _ => 0) 8
        (coldStart inpZero (fun _ _ => 3) (fun _ _ => 7)) 1).indices 0 0) :=
  (claim_C4 inpZero (by decide) (by decide)).2.2.2
    (fun _ _ _ _ => 0) 8 (fun _ _ => 3) (fun _ _ => 7) 1 0 0

end NeuralDoodle
